import Mathlib

/-
Verification of the merge engine and row-level filter passes of
`generate_mtdna_call_mt/merging_utils.py` (mtSwirl).

The Hail MatrixTable pipeline is shallowly embedded:

* a localized table (`mt.localize_entries("__entries", "__cols")`) becomes
  `LTable K E`: an ordered column list together with keyed rows, each row
  carrying an array of optional entries aligned with the column list;
* `hl.Table.multi_way_zip_join` followed by the flatten/coalesce
  annotations of `multi_way_union_mts` becomes `zipJoinFlatten`;
* the staged while-loop of `multi_way_union_mts` becomes `multiWayUnionGo`
  (fuel-indexed structural recursion; the fuel `ts.length` suffices for
  any chunk size ≥ 2, where the loop terminates);
* Hail missingness semantics (Kleene `&`, missing-propagating `if_else`,
  `hl.null`) are embedded with `Option` and the combinators `hIfElse`,
  `kleeneAndT`;
* checkpoint/resume path construction (`os.path.join`, the f-strings of
  lines 38, 51, 66 and 91 of the source) is embedded over `String`.
-/

namespace MtSwirl

/-! ## The `chunks` generator (merging_utils.py lines 107–115) -/

/-- Accumulator-passing embedding of the python generator body:
`lst` is the pending bin, the second list the remaining items. -/
def chunksGo (binsize : Nat) : List α → List α → List (List α)
  | [], [] => []
  | a :: l, [] => [a :: l]
  | lst, x :: xs =>
    if (lst ++ [x]).length = binsize then (lst ++ [x]) :: chunksGo binsize [] xs
    else chunksGo binsize (lst ++ [x]) xs

/-- `chunks(items, binsize)`: yield successive bins of `binsize` items,
with a final short bin whenever items remain. -/
def chunks (items : List α) (binsize : Nat) : List (List α) :=
  chunksGo binsize [] items


/-! ## Localized tables and `multi_way_union_mts` (lines 12–104)

`LTable K E` models a Hail table obtained by
`mt.localize_entries("__entries", "__cols")`: the global `__cols` is the
ordered list of column (sample) identifiers, and each keyed row carries the
`__entries` array, aligned index-by-index with `__cols`.  A missing entry
(a sample lacking the variant) is `none`. -/

structure LTable (K E : Type) where
  cols : List String
  rows : List (K × List (Option E))

namespace LTable

variable {K E : Type} [DecidableEq K]

/-- The row keys, in row order. -/
def keys (t : LTable K E) : List K := t.rows.map Prod.fst

/-- Keyed row lookup (first row with the given key). -/
def lookupRow (t : LTable K E) (k : K) : Option (List (Option E)) :=
  (t.rows.find? (fun r => decide (r.1 = k))).map Prod.snd

/-- The row's entry array, padded to an all-missing array of the table's
column count when the key is absent — exactly the array the `hl.coalesce`
fallback of `multi_way_union_mts` (lines 72–79) builds for that input. -/
def fullRow (t : LTable K E) (k : K) : List (Option E) :=
  (t.lookupRow k).getD (List.replicate t.cols.length none)

/-- Well-formedness: keys are unique and every entry array is aligned with
the column list. -/
def WF (t : LTable K E) : Prop :=
  t.keys.Nodup ∧ ∀ r ∈ t.rows, r.2.length = t.cols.length

end LTable

variable {K E : Type} [DecidableEq K]

/-- The key set of a zip join: every row key present in any input, each
once (`dedup`). -/
def unionKeys (ts : List (LTable K E)) : List K :=
  ((ts.map LTable.keys).flatten).dedup

/-- One merge job of `multi_way_union_mts` (lines 64–87):
`hl.Table.multi_way_zip_join` followed by the `__entries` flatten/coalesce
annotation and the `__cols` flatten annotation.  The output column list is
the concatenation of the inputs' column lists in input order; an output
row's entry array concatenates, per input, that input's entry array when
the key is present and an all-null array of that input's column count
otherwise. -/
def zipJoinFlatten (ts : List (LTable K E)) : LTable K E :=
  { cols := (ts.map LTable.cols).flatten
    rows := (unionKeys ts).map (fun k => (k, (ts.map (fun t => t.fullRow k)).flatten)) }

/-- The job slicing `staging[chunk_size * i : chunk_size * (i + 1)]`
(line 58), presented as consecutive slices; for `c ≥ 1` the nonempty
slices taken by jobs `0 ≤ i < ceil(len/c)` are exactly these. -/
def sliceChunksGo (c : Nat) : Nat → List α → List (List α)
  | _, [] => []
  | 0, x :: xs => [x :: xs]
  | fuel + 1, x :: xs =>
    if c = 0 then [x :: xs]
    else (x :: xs).take c :: sliceChunksGo c fuel ((x :: xs).drop c)

/-- Entry point: the fuel `l.length` is never exhausted when `c ≥ 1`. -/
def sliceChunks (c : Nat) (l : List α) : List (List α) :=
  sliceChunksGo c l.length l

/-- One stage of the while-loop (lines 56–97): each job zip-joins its
slice of the staging list. -/
def mergeStep (c : Nat) (ts : List (LTable K E)) : List (LTable K E) :=
  (sliceChunks c ts).map zipJoinFlatten

/-- The while-loop of `multi_way_union_mts` (lines 28–97), with fuel for
structural recursion.  A staging list of length ≤ 1 is returned as-is
(its head is the loop's result); with chunk size ≥ 2 the fuel
`ts.length` is never exhausted. -/
def multiWayUnionGo (c : Nat) : Nat → List (LTable K E) → LTable K E
  | _, [] => ⟨[], []⟩
  | _, [t] => t
  | 0, t :: _ => t
  | fuel + 1, t0 :: t1 :: ts => multiWayUnionGo c fuel (mergeStep c (t0 :: t1 :: ts))

/-- `multi_way_union_mts(mts, ..., chunk_size, ...)`: hierarchically join
the list of (localized) tables.  The trailing `_unlocalize_entries` /
`unfilter_entries` of lines 100–104 is a representation change back to a
MatrixTable and does not alter the column list, key set, or entry arrays
modelled here. -/
def multi_way_union_mts (mts : List (LTable K E)) (chunk_size : Nat) : LTable K E :=
  multiWayUnionGo chunk_size mts.length mts

/-- Decidability of table well-formedness, for concrete evaluation. -/
instance (t : LTable K E) : Decidable t.WF :=
  inferInstanceAs (Decidable (t.keys.Nodup ∧ ∀ r ∈ t.rows, r.2.length = t.cols.length))

/-- The end-to-end example of C1: three single-column partitions, one row
`(MT, 100)` each, with values 5, 7 and 9. -/
def exampleTable (s : String) (v : Int) : LTable (String × Nat) Int :=
  ⟨[s], [(("MT", 100), [some v])]⟩

def exampleInputs : List (LTable (String × Nat) Int) :=
  [exampleTable "A" 5, exampleTable "B" 7, exampleTable "C" 9]

/-! ## Checkpoint paths and the resume check (lines 35–54, 66, 89–93)

`multi_way_union_mts` writes each job's checkpoint to
`os.path.join(temp_dir, f"{prefix}stage_{stage}_job_{i}.ht")` (line 91),
but the resume check (line 38) and the resume read (line 51) build
`os.path.join(temp_dir, f"stage_{stage}_job_{idx}.ht")` — without the
prefix. -/

/-- `os.path.join(a, b)` for a relative second component. -/
def osPathJoin (a b : String) : String := a ++ "/" ++ b

/-- The checkpoint write path of line 91. -/
def checkpointWritePath (tempDir pfx : String) (stage job : Nat) : String :=
  osPathJoin tempDir (pfx ++ "stage_" ++ toString stage ++ "_job_" ++ toString job ++ ".ht")

/-- The pre-checkpoint write path of line 66 (used when `min_partitions > 10`). -/
def preWritePath (tempDir pfx : String) (stage job : Nat) : String :=
  osPathJoin tempDir (pfx ++ "stage_" ++ toString stage ++ "_job_" ++ toString job ++ "_pre.ht")

/-- The path whose `_SUCCESS` marker the resume check inspects (line 38)
and that the resume read loads (line 51). -/
def resumeCheckPath (tempDir : String) (stage job : Nat) : String :=
  osPathJoin tempDir ("stage_" ++ toString stage ++ "_job_" ++ toString job ++ ".ht")

/-! ### The resume decision (lines 35–54) -/

/-- The three ways a stage can proceed under `check_from_disk`. -/
inductive StageAction where
  | fatalResume
  | readFromDisk
  | compute
deriving DecidableEq

/-- The first job index in `range(n_jobs)` whose `_SUCCESS` marker is
absent (the loop of lines 37–45; `ex j` is `hl.hadoop_is_file` of job
`j`'s marker for the current stage). -/
def firstMissing (ex : Nat → Bool) (njobs : Nat) : Option Nat :=
  (List.range njobs).find? (fun j => !(ex j))

/-- The decision of lines 35–54: with `check_from_disk`, a missing marker
raises at stage 0 and forces a full recompute at later stages; with every
marker present the stage's checkpoints are read back. -/
def resumeStageAction (checkFromDisk : Bool) (ex : Nat → Bool) (stage njobs : Nat) :
    StageAction :=
  if checkFromDisk then
    match firstMissing ex njobs with
    | some _ => if stage = 0 then .fatalResume else .compute
    | none => .readFromDisk
  else .compute

/-- Which jobs the stage recomputes (the for-loop of lines 56–93 runs over
all of `range(n_jobs)` whenever it is reached at all). -/
def stageJobsRecomputed (a : StageAction) (njobs : Nat) : List Nat :=
  match a with
  | .compute => List.range njobs
  | _ => []

/-- Which checkpoints the stage reuses (the read-back loop of lines 50–51
runs over all of `range(n_jobs)` only in the read-from-disk outcome). -/
def stageCheckpointsReused (a : StageAction) (njobs : Nat) : List Nat :=
  match a with
  | .readFromDisk => List.range njobs
  | _ => []

/-! ## The artifact-prone-site filter (`apply_mito_artifact_filter`,
lines 551–628)

Reference intervals from the BED file are closed 1-based position ranges
(`hl.import_bed` turns the 0-based half-open BED line into positions
`start+1 .. end`); the row's region (lines 574–584) is the closed interval
`[locus, locus + len(alleles[0]) - 1]` (`includes_end=True`). -/

/-- A closed genomic interval on the single contig MT. -/
structure GIv where
  lo : Nat
  hi : Nat
deriving DecidableEq

/-- Row classification: `start_overlaps` (line 587) is nonempty iff some
bed interval contains the region's start; `end_overlaps` (line 590) iff
some bed interval contains the region's end; `start_and_end_span`
(lines 593–614) is defined iff some bed interval's start position lies in
the row's region.  The filter (lines 617–625) is `artifact_prone_site`
when any of the three holds, `PASS` otherwise. -/
def apply_mito_artifact_filter (bed : List GIv) (pos refLen : Nat) : List String :=
  if bed.any (fun I => decide (I.lo ≤ pos) && decide (pos ≤ I.hi))
      || bed.any (fun I => decide (I.lo ≤ pos + refLen - 1)
          && decide (pos + refLen - 1 ≤ I.hi))
      || bed.any (fun I => decide (pos ≤ I.lo) && decide (I.lo ≤ pos + refLen - 1))
  then ["artifact_prone_site"]
  else ["PASS"]

/-! ## Entry-level passes (`remove_genotype_filters`, `determine_hom_refs`)

`MTEntry` is the entry struct selected by `vcf_merging`
(line 401: `DP, HL, MQ, TLOD, FT`), every field optional as in Hail.
`HL` (a Hail float) is embedded as `ℚ`; the only float value these passes
construct is the literal `0.0`, and no float arithmetic occurs. -/

abbrev Filters := List String

structure MTEntry where
  DP : Option Int
  HL : Option ℚ
  MQ : Option ℚ
  TLOD : Option ℚ
  FT : Option Filters
deriving DecidableEq

/-- `hl.if_else`: a missing predicate yields a missing result. -/
def hIfElse {α : Type} : Option Bool → Option α → Option α → Option α
  | none, _, _ => none
  | some true, a, _ => a
  | some false, _, b => b

/-- Hail's Kleene `&` with a non-missing left operand (`hl.is_missing` is
total): false short-circuits, true propagates the right operand's
missingness. -/
def kleeneAndT (b : Bool) (y : Option Bool) : Option Bool :=
  if b then y else some false

/-- `x > c` on an optional int (missing operand gives missing). -/
def optGtInt (x : Option Int) (c : Int) : Option Bool :=
  x.map (fun v => decide (c < v))

/-- `x <= c` on an optional int (missing operand gives missing). -/
def optLeInt (x : Option Int) (c : Int) : Option Bool :=
  x.map (fun v => decide (v ≤ c))

/-- `determine_hom_refs` per entry (lines 514–548).  `cov` is
`coverages[mt.locus, mt.s].coverage` — missing when the coverage table
lacks that (locus, sample) key.  First annotate (lines 532–534): `DP`
becomes the coverage when `HL` is missing.  Second annotate
(lines 536–546): all three fields are computed against the pre-update
`HL` and the once-updated `DP`, per Hail's simultaneous
`annotate_entries` semantics. -/
def determine_hom_refs (minimum_homref_coverage : Int) (cov : Option Int)
    (e : MTEntry) : MTEntry :=
  let DP1 := hIfElse (some e.HL.isNone) cov e.DP
  let hom_ref_expr := kleeneAndT e.HL.isNone (optGtInt DP1 minimum_homref_coverage)
  { e with
    HL := hIfElse hom_ref_expr (some 0) e.HL
    FT := hIfElse hom_ref_expr (some ["PASS"]) e.FT
    DP := hIfElse (kleeneAndT e.HL.isNone (optLeInt DP1 minimum_homref_coverage))
      none DP1 }

/-! ### `remove_genotype_filters` (lines 485–511) -/

/-- The genotype filters removed by default. -/
def FILTERS_TO_REMOVE : List String :=
  ["possible_numt", "mt_many_low_hets", "FAIL", "blacklisted_site"]

/-- The FT transform (lines 506–509): set difference with the filters to
remove, then replace an emptied set by `{PASS}`.  A missing FT stays
missing (Hail's `difference`, `len` and `if_else` all propagate
missingness). -/
def remove_genotype_filters_FT (ft : Option Filters) : Option Filters :=
  (ft.map (fun s => s.filter (fun f => decide (f ∉ FILTERS_TO_REMOVE)))).map
    (fun s => if s.isEmpty then ["PASS"] else s)

/-- The per-entry action of `remove_genotype_filters`: only FT changes. -/
def remove_genotype_filters_entry (e : MTEntry) : MTEntry :=
  { e with FT := remove_genotype_filters_FT e.FT }

/-- A matrix table reduced to what this pass can see: row-level fields,
column-level fields, and the entry grid. -/
structure MiniMT (R C : Type) where
  rowFields : List R
  colFields : List C
  entries : List (List MTEntry)

/-- `remove_genotype_filters` (lines 485–511): `annotate_entries` maps the
FT transform over every entry and touches nothing else. -/
def remove_genotype_filters {R C : Type} (m : MiniMT R C) : MiniMT R C :=
  { m with entries := m.entries.map (fun row => row.map remove_genotype_filters_entry) }

/-! ## Schema guard of `join_two_mts` (lines 221–230)

Hail dtypes are embedded as ordered field lists; `dtype` equality in Hail
is pointwise (same field names, same order, same types). -/

inductive HType where
  | tint32
  | tint64
  | tfloat64
  | tstr
  | tbool
  | tcall
  | tarray (elt : HType)
  | tset (elt : HType)
deriving DecidableEq

/-- An ordered struct type: field names with their types. -/
abbrev HStruct := List (String × HType)

structure MatrixSchema where
  rowKey : HStruct
  rowValue : HStruct
  colKey : HStruct
  colValue : HStruct
  entry : HStruct
deriving DecidableEq

/-- `select_rows(*keep)` / `select_cols(*keep)` on the value fields: key
fields are always kept; the kept value fields appear in `keep` order. -/
def selectFields (fields : HStruct) (keep : List String) : HStruct :=
  keep.filterMap (fun n => (fields.lookup n).map (fun ty => (n, ty)))

/-- Lines 223–224: both inputs are reduced to `row_keep` / `col_keep`. -/
def select_rows_cols (s : MatrixSchema) (row_keep col_keep : List String) :
    MatrixSchema :=
  { s with
    rowValue := selectFields s.rowValue row_keep
    colValue := selectFields s.colValue col_keep }

/-- `mt.row.dtype`: key fields then value fields. -/
def rowDtype (s : MatrixSchema) : HStruct := s.rowKey ++ s.rowValue

/-- `mt.col.dtype`. -/
def colDtype (s : MatrixSchema) : HStruct := s.colKey ++ s.colValue

/-- `mt.entry.dtype`. -/
def entryDtype (s : MatrixSchema) : HStruct := s.entry

def SCHEMA_ERR : String := "ERROR: when joining MatrixTables, schemas must be the same."

def ceilDiv (n c : Nat) : Nat := (n + c - 1) / c

/-- The checkpoint paths `multi_way_union_mts` writes, in write order:
per stage, per job, the optional `_pre` checkpoint (line 66, written when
`min_partitions > 10`) then the job checkpoint (line 91). -/
def mergeWritePathsGo (tempDir pfx : String) (c minPartitions : Nat) :
    Nat → Nat → Nat → List String
  | 0, _, _ => []
  | fuel + 1, stg, n =>
    if n ≤ 1 then []
    else
      ((List.range (ceilDiv n c)).map (fun i =>
        (if 10 < minPartitions then [preWritePath tempDir pfx stg i] else [])
          ++ [checkpointWritePath tempDir pfx stg i])).flatten
      ++ mergeWritePathsGo tempDir pfx c minPartitions fuel (stg + 1) (ceilDiv n c)

def mergeWritePaths (tempDir pfx : String) (c minPartitions n : Nat) : List String :=
  mergeWritePathsGo tempDir pfx c minPartitions n 0 n

/-- `join_two_mts(mt1, mt2, row_keep, col_keep, temp_dir, partitions)`
(lines 221–230): select the kept row/col fields on both inputs, compare
the three dtypes, raise on mismatch, otherwise run
`multi_way_union_mts([mt1, mt2], chunk_size=2, prefix='appending_')`.
The first component lists the checkpoint paths written. -/
def join_two_mts (s1 s2 : MatrixSchema) (t1 t2 : LTable K E)
    (row_keep col_keep : List String) (temp_dir : String) (partitions : Nat) :
    List String × Except String (LTable K E) :=
  let a := select_rows_cols s1 row_keep col_keep
  let b := select_rows_cols s2 row_keep col_keep
  if rowDtype a = rowDtype b ∧ colDtype a = colDtype b ∧ entryDtype a = entryDtype b
  then (mergeWritePaths temp_dir "appending_" 2 partitions 2,
    Except.ok (multi_way_union_mts [t1, t2] 2))
  else ([], Except.error SCHEMA_ERR)

/-- A schema with integer depth. -/
def schemaIntDP : MatrixSchema :=
  ⟨[("locus", HType.tstr)], [], [("s", HType.tstr)], [], [("DP", HType.tint32)]⟩

/-- The same schema except `DP` is a float. -/
def schemaFloatDP : MatrixSchema :=
  ⟨[("locus", HType.tstr)], [], [("s", HType.tstr)], [], [("DP", HType.tfloat64)]⟩

/-- An empty localized table for the guard witness. -/
def emptyLT : LTable (String × Nat) Int := ⟨[], []⟩

lemma chunksGo_flatten (b : Nat) :
    ∀ (xs lst : List α), lst.length < b → (chunksGo b lst xs).flatten = lst ++ xs := by
  intro xs
  induction xs with
  | nil =>
    intro lst _
    match lst with
    | [] => simp [chunksGo]
    | a :: l => simp [chunksGo]
  | cons x xs ih =>
    intro lst hlen
    simp only [chunksGo]
    by_cases h : (lst ++ [x]).length = b
    · rw [if_pos h, List.flatten_cons, ih [] (by simp only [List.length_nil]; omega)]
      simp
    · rw [if_neg h]
      have hlen' : (lst ++ [x]).length < b := by
        have : (lst ++ [x]).length = lst.length + 1 := by simp
        omega
      rw [ih _ hlen']
      simp

lemma chunksGo_bounds (b : Nat) (hb : 1 ≤ b) :
    ∀ (xs lst : List α), lst.length < b →
      ∀ c ∈ chunksGo b lst xs, 1 ≤ c.length ∧ c.length ≤ b := by
  intro xs
  induction xs with
  | nil =>
    intro lst hlen c hc
    match lst with
    | [] => simp [chunksGo] at hc
    | a :: l =>
      simp only [chunksGo, List.mem_singleton] at hc
      subst hc
      simp only [List.length_cons] at hlen ⊢
      omega
  | cons x xs ih =>
    intro lst hlen c hc
    simp only [chunksGo] at hc
    by_cases h : (lst ++ [x]).length = b
    · rw [if_pos h] at hc
      rcases List.mem_cons.mp hc with hc | hc
      · subst hc
        constructor
        · omega
        · omega
      · exact ih [] (by simp only [List.length_nil]; omega) c hc
    · rw [if_neg h] at hc
      have hlen' : (lst ++ [x]).length < b := by
        have : (lst ++ [x]).length = lst.length + 1 := by simp
        omega
      exact ih _ hlen' c hc

lemma chunksGo_dropLast (b : Nat) :
    ∀ (xs lst : List α), lst.length < b →
      ∀ c ∈ (chunksGo b lst xs).dropLast, c.length = b := by
  intro xs
  induction xs with
  | nil =>
    intro lst _ c hc
    match lst with
    | [] => simp [chunksGo] at hc
    | a :: l => simp [chunksGo, List.dropLast] at hc
  | cons x xs ih =>
    intro lst hlen c hc
    simp only [chunksGo] at hc
    by_cases h : (lst ++ [x]).length = b
    · rw [if_pos h] at hc
      rcases hrest : chunksGo b ([] : List α) xs with _ | ⟨r, rs⟩
      · rw [hrest] at hc
        simp [List.dropLast] at hc
      · rw [hrest, List.dropLast_cons₂] at hc
        rcases List.mem_cons.mp hc with hc | hc
        · subst hc; exact h
        · have := ih [] (by simp only [List.length_nil]; omega) c
          rw [hrest] at this
          exact this hc
    · rw [if_neg h] at hc
      have hlen' : (lst ++ [x]).length < b := by
        have : (lst ++ [x]).length = lst.length + 1 := by simp
        omega
      exact ih _ hlen' c hc

/-! ### Association-list lemmas for keyed row lookup -/

lemma find?_key_map {β : Type} (f : K → β) (l : List K) (k : K) (hk : k ∈ l) :
    (l.map (fun k' => (k', f k'))).find? (fun p => decide (p.1 = k)) = some (k, f k) := by
  induction l with
  | nil => cases hk
  | cons a l ih =>
    by_cases h : a = k
    · subst h
      simp [List.find?]
    · rcases List.mem_cons.mp hk with h' | h'
      · exact absurd h'.symm h
      · simpa [List.find?, h] using ih h'

lemma find?_key_not_mem {β : Type} (l : List (K × β)) (k : K) (hk : k ∉ l.map Prod.fst) :
    l.find? (fun p => decide (p.1 = k)) = none := by
  induction l with
  | nil => rfl
  | cons a l ih =>
    simp only [List.map_cons, List.mem_cons, not_or] at hk
    rw [List.find?_cons_of_neg _ (by simpa using fun h : a.1 = k => hk.1 h.symm)]
    exact ih hk.2

lemma find?_key_isSome {β : Type} (l : List (K × β)) (k : K) (hk : k ∈ l.map Prod.fst) :
    ∃ v, l.find? (fun p => decide (p.1 = k)) = some v ∧ v.1 = k ∧ v ∈ l := by
  induction l with
  | nil => cases hk
  | cons a l ih =>
    by_cases h : a.1 = k
    · exact ⟨a, by simp [List.find?, h], h, List.mem_cons_self a l⟩
    · simp only [List.map_cons, List.mem_cons] at hk
      rcases hk with hk | hk
      · exact absurd hk.symm h
      · obtain ⟨v, hv, hv1, hvm⟩ := ih hk
        exact ⟨v, by simpa [List.find?, h] using hv, hv1, List.mem_cons_of_mem a hvm⟩

namespace LTable

lemma lookupRow_eq_none_of_not_mem {t : LTable K E} {k : K} (hk : k ∉ t.keys) :
    t.lookupRow k = none := by
  unfold lookupRow
  rw [find?_key_not_mem t.rows k hk]
  rfl

lemma mem_rows_of_lookupRow {t : LTable K E} {k : K} {es : List (Option E)}
    (h : t.lookupRow k = some es) : (k, es) ∈ t.rows := by
  unfold lookupRow at h
  rcases hf : t.rows.find? (fun p => decide (p.1 = k)) with _ | v
  · rw [hf] at h; cases h
  · rw [hf] at h
    have hv : v ∈ t.rows := List.mem_of_find?_eq_some hf
    have hp : v.1 = k := by
      have := List.find?_some hf
      simpa using this
    have hsnd : v.2 = es := by simpa using h
    have : v = (k, es) := by
      cases v; simp_all
    rwa [this] at hv

lemma lookupRow_eq_some_of_mem {t : LTable K E} {k : K} (hk : k ∈ t.keys) :
    t.lookupRow k = some (t.fullRow k) := by
  obtain ⟨v, hv, hv1, _⟩ := find?_key_isSome t.rows k hk
  unfold fullRow lookupRow
  rw [hv]
  rfl

lemma fullRow_of_not_mem {t : LTable K E} {k : K} (hk : k ∉ t.keys) :
    t.fullRow k = List.replicate t.cols.length none := by
  unfold fullRow
  rw [lookupRow_eq_none_of_not_mem hk]
  rfl

lemma length_fullRow {t : LTable K E} (hwf : t.WF) (k : K) :
    (t.fullRow k).length = t.cols.length := by
  rcases h : t.lookupRow k with _ | es
  · unfold fullRow
    rw [h]
    simp
  · have hm := mem_rows_of_lookupRow h
    have := hwf.2 _ hm
    unfold fullRow
    rw [h]
    simpa using this

end LTable

/-! ### The zip-join job -/

lemma mem_unionKeys {ts : List (LTable K E)} {k : K} :
    k ∈ unionKeys ts ↔ ∃ t ∈ ts, k ∈ t.keys := by
  unfold unionKeys
  rw [List.mem_dedup, List.mem_flatten]
  constructor
  · rintro ⟨l, hl, hk⟩
    obtain ⟨t, ht, rfl⟩ := List.mem_map.mp hl
    exact ⟨t, ht, hk⟩
  · rintro ⟨t, ht, hk⟩
    exact ⟨t.keys, List.mem_map.mpr ⟨t, ht, rfl⟩, hk⟩

lemma keys_zipJoinFlatten (ts : List (LTable K E)) :
    (zipJoinFlatten ts).keys = unionKeys ts := by
  unfold zipJoinFlatten LTable.keys
  rw [List.map_map]
  exact List.map_id _

lemma lookupRow_zipJoinFlatten_of_mem {ts : List (LTable K E)} {k : K}
    (hk : k ∈ unionKeys ts) :
    (zipJoinFlatten ts).lookupRow k
      = some ((ts.map (fun t => t.fullRow k)).flatten) := by
  unfold LTable.lookupRow zipJoinFlatten
  rw [find?_key_map (fun k' => (ts.map (fun t => t.fullRow k')).flatten) _ k hk]
  rfl

omit [DecidableEq K] in
lemma flatten_map_replicate_none (ts : List (LTable K E)) :
    (ts.map (fun t => List.replicate t.cols.length (none : Option E))).flatten
      = List.replicate ((ts.map LTable.cols).flatten).length none := by
  induction ts with
  | nil => rfl
  | cons t ts ih =>
    simp only [List.map_cons, List.flatten_cons, List.length_append, ih]
    rw [List.replicate_add]

lemma fullRow_zipJoinFlatten (ts : List (LTable K E)) (k : K) :
    (zipJoinFlatten ts).fullRow k = (ts.map (fun t => t.fullRow k)).flatten := by
  by_cases hk : k ∈ unionKeys ts
  · unfold LTable.fullRow
    rw [lookupRow_zipJoinFlatten_of_mem hk]
    rfl
  · have hall : ∀ t ∈ ts, t.fullRow k = List.replicate t.cols.length none := by
      intro t ht
      apply LTable.fullRow_of_not_mem
      intro hmem
      exact hk (mem_unionKeys.mpr ⟨t, ht, hmem⟩)
    calc (zipJoinFlatten ts).fullRow k
        = List.replicate (zipJoinFlatten ts).cols.length none :=
          LTable.fullRow_of_not_mem (by rwa [keys_zipJoinFlatten])
      _ = (ts.map (fun t => List.replicate t.cols.length (none : Option E))).flatten := by
          rw [flatten_map_replicate_none]
          rfl
      _ = (ts.map (fun t => t.fullRow k)).flatten := by
          rw [List.map_congr_left hall]

lemma zipJoinFlatten_WF {ts : List (LTable K E)} (hwf : ∀ t ∈ ts, t.WF) :
    (zipJoinFlatten ts).WF := by
  constructor
  · rw [keys_zipJoinFlatten]
    exact List.nodup_dedup _
  · intro r hr
    obtain ⟨k, hk, rfl⟩ := List.mem_map.mp hr
    show ((ts.map (fun t => t.fullRow k)).flatten).length
        = ((ts.map LTable.cols).flatten).length
    rw [List.length_flatten, List.length_flatten, List.map_map, List.map_map]
    congr 1
    apply List.map_congr_left
    intro t ht
    exact LTable.length_fullRow (hwf t ht) k

/-! ### Stage slicing -/

lemma sliceChunksGo_flatten (c : Nat) :
    ∀ (fuel : Nat) (l : List α), (sliceChunksGo c fuel l).flatten = l := by
  intro fuel
  induction fuel with
  | zero =>
    intro l
    cases l with
    | nil => rfl
    | cons x xs => simp [sliceChunksGo]
  | succ fuel ih =>
    intro l
    cases l with
    | nil => rfl
    | cons x xs =>
      simp only [sliceChunksGo]
      by_cases hcz : c = 0
      · simp [hcz]
      · rw [if_neg hcz]
        simp only [List.flatten_cons, ih]
        exact List.take_append_drop c (x :: xs)

lemma sliceChunks_flatten (c : Nat) (l : List α) : (sliceChunks c l).flatten = l :=
  sliceChunksGo_flatten c l.length l

lemma sliceChunksGo_singleton (c : Nat) (hc : 0 < c) (fuel : Nat) (y : α) :
    sliceChunksGo c fuel [y] = [[y]] := by
  cases fuel with
  | zero => rfl
  | succ fuel =>
    simp only [sliceChunksGo]
    rw [if_neg (by omega)]
    obtain ⟨m, rfl⟩ : ∃ m, c = m + 1 := ⟨c - 1, by omega⟩
    simp [sliceChunksGo]

lemma sliceChunksGo_length_lt (c : Nat) (hc : 2 ≤ c) :
    ∀ (fuel : Nat) (l : List α), 2 ≤ l.length → (sliceChunksGo c fuel l).length < l.length := by
  intro fuel
  induction fuel with
  | zero =>
    intro l hl
    cases l with
    | nil => simp at hl
    | cons x xs => simpa [sliceChunksGo] using hl
  | succ fuel ih =>
    intro l hl
    cases l with
    | nil => simp at hl
    | cons x xs =>
      simp only [sliceChunksGo]
      rw [if_neg (by omega)]
      have hdrop : ((x :: xs).drop c).length = (x :: xs).length - c := List.length_drop c (x :: xs)
      rcases Nat.lt_or_ge ((x :: xs).drop c).length 2 with hsmall | hbig
      · rcases Nat.lt_or_ge ((x :: xs).drop c).length 1 with h0 | h1
        · have hnil : (x :: xs).drop c = [] := List.length_eq_zero.mp (by omega)
          rw [hnil]
          have hgo : sliceChunksGo c fuel ([] : List α) = [] := by cases fuel <;> rfl
          rw [hgo]
          simp only [List.length_cons, List.length_nil] at hl ⊢
          omega
        · have h1' : ((x :: xs).drop c).length = 1 := by omega
          obtain ⟨y, hy⟩ := List.length_eq_one.mp h1'
          rw [hy, sliceChunksGo_singleton c (by omega) fuel y]
          have hc1 : xs.length + 1 - c = 1 := by
            have h2 := hdrop
            rw [hy] at h2
            simp only [List.length_singleton, List.length_cons, List.length_nil] at h2
            omega
          simp only [List.length_cons, List.length_singleton, List.length_nil] at hl ⊢
          omega
      · have hrec := ih _ hbig
        simp only [List.length_cons, List.length_drop] at hl hdrop hrec hbig ⊢
        omega

lemma sliceChunks_length_lt (c : Nat) (hc : 2 ≤ c) (l : List α) (hl : 2 ≤ l.length) :
    (sliceChunks c l).length < l.length :=
  sliceChunksGo_length_lt c hc l.length l hl

lemma sliceChunksGo_ne_nil (c fuel : Nat) (x : α) (xs : List α) :
    sliceChunksGo c fuel (x :: xs) ≠ [] := by
  cases fuel with
  | zero => simp [sliceChunksGo]
  | succ fuel =>
    simp only [sliceChunksGo]
    split <;> simp

lemma mem_of_mem_sliceChunks {c : Nat} {l ch : List α} {x : α}
    (hch : ch ∈ sliceChunks c l) (hx : x ∈ ch) : x ∈ l := by
  have : x ∈ (sliceChunks c l).flatten := List.mem_flatten.mpr ⟨ch, hch, hx⟩
  rwa [sliceChunks_flatten] at this

lemma flatten_map_flatten {α β : Type} (f : α → List β) (L : List (List α)) :
    (L.map (fun ch => (ch.map f).flatten)).flatten = ((L.flatten).map f).flatten := by
  induction L with
  | nil => rfl
  | cons ch L ih => simp [List.map_append, List.flatten_append, ih]

/-! ### One stage preserves the merged dataset -/

lemma mergeStep_cols (c : Nat) (l : List (LTable K E)) :
    ((mergeStep c l).map LTable.cols).flatten = (l.map LTable.cols).flatten := by
  unfold mergeStep
  rw [List.map_map]
  have hfun : (LTable.cols ∘ zipJoinFlatten)
      = fun ch : List (LTable K E) => (ch.map LTable.cols).flatten := rfl
  rw [hfun, flatten_map_flatten, sliceChunks_flatten]

lemma mergeStep_fullRow (c : Nat) (l : List (LTable K E)) (k : K) :
    ((mergeStep c l).map (fun t => t.fullRow k)).flatten
      = (l.map (fun t => t.fullRow k)).flatten := by
  unfold mergeStep
  rw [List.map_map]
  have hcong : (sliceChunks c l).map ((fun t => t.fullRow k) ∘ zipJoinFlatten)
      = (sliceChunks c l).map (fun ch => (ch.map (fun t => t.fullRow k)).flatten) :=
    List.map_congr_left (fun ch _ => fullRow_zipJoinFlatten ch k)
  rw [hcong, flatten_map_flatten, sliceChunks_flatten]

lemma mergeStep_keys (c : Nat) (l : List (LTable K E)) (k : K) :
    (∃ m ∈ mergeStep c l, k ∈ m.keys) ↔ ∃ t ∈ l, k ∈ t.keys := by
  constructor
  · rintro ⟨m, hm, hk⟩
    obtain ⟨ch, hch, rfl⟩ := List.mem_map.mp hm
    rw [keys_zipJoinFlatten] at hk
    obtain ⟨t, ht, hkt⟩ := mem_unionKeys.mp hk
    exact ⟨t, mem_of_mem_sliceChunks hch ht, hkt⟩
  · rintro ⟨t, ht, hkt⟩
    have : t ∈ (sliceChunks c l).flatten := by rwa [sliceChunks_flatten]
    obtain ⟨ch, hch, htch⟩ := List.mem_flatten.mp this
    refine ⟨zipJoinFlatten ch, List.mem_map.mpr ⟨ch, hch, rfl⟩, ?_⟩
    rw [keys_zipJoinFlatten]
    exact mem_unionKeys.mpr ⟨t, htch, hkt⟩

lemma mergeStep_WF (c : Nat) (l : List (LTable K E)) (hwf : ∀ t ∈ l, t.WF) :
    ∀ m ∈ mergeStep c l, m.WF := by
  intro m hm
  obtain ⟨ch, hch, rfl⟩ := List.mem_map.mp hm
  exact zipJoinFlatten_WF (fun t ht => hwf t (mem_of_mem_sliceChunks hch ht))

/-! ### The staged reduction computes the flat n-way merge -/

lemma multiWayUnionGo_spec (c : Nat) (hc : 2 ≤ c) :
    ∀ (fuel : Nat) (ts : List (LTable K E)), ts ≠ [] → ts.length ≤ fuel + 1 →
      (∀ t ∈ ts, t.WF) →
      (multiWayUnionGo c fuel ts).cols = (ts.map LTable.cols).flatten
      ∧ (∀ k, (multiWayUnionGo c fuel ts).fullRow k
          = (ts.map (fun t => t.fullRow k)).flatten)
      ∧ (∀ k, (k ∈ (multiWayUnionGo c fuel ts).keys ↔ ∃ t ∈ ts, k ∈ t.keys))
      ∧ (multiWayUnionGo c fuel ts).WF := by
  intro fuel
  induction fuel with
  | zero =>
    intro ts hne hlen hwf
    cases ts with
    | nil => exact absurd rfl hne
    | cons t rest0 =>
      cases rest0 with
      | nil =>
        refine ⟨by simp [multiWayUnionGo], fun k => by simp [multiWayUnionGo],
          fun k => by simp [multiWayUnionGo], ?_⟩
        exact hwf t (by simp)
      | cons t1 rest => simp at hlen
  | succ fuel ih =>
    intro ts hne hlen hwf
    cases ts with
    | nil => exact absurd rfl hne
    | cons t0 rest0 =>
      cases rest0 with
      | nil =>
        refine ⟨by simp [multiWayUnionGo], fun k => by simp [multiWayUnionGo],
          fun k => by simp [multiWayUnionGo], ?_⟩
        exact hwf t0 (by simp)
      | cons t1 rest =>
        have hstep : multiWayUnionGo c (fuel + 1) (t0 :: t1 :: rest)
            = multiWayUnionGo c fuel (mergeStep c (t0 :: t1 :: rest)) := rfl
        have hms_ne : mergeStep c (t0 :: t1 :: rest) ≠ [] := by
          unfold mergeStep
          intro h
          exact sliceChunksGo_ne_nil c (t0 :: t1 :: rest).length t0 (t1 :: rest)
            (List.map_eq_nil_iff.mp h)
        have hms_len : (mergeStep c (t0 :: t1 :: rest)).length ≤ fuel + 1 := by
          have h1 : (mergeStep c (t0 :: t1 :: rest)).length
              = (sliceChunks c (t0 :: t1 :: rest)).length := List.length_map _ _
          have h2 : (sliceChunks c (t0 :: t1 :: rest)).length < (t0 :: t1 :: rest).length :=
            sliceChunks_length_lt c hc _ (by simp)
          simp only [List.length_cons] at h2 hlen
          omega
        have hms_wf := mergeStep_WF c (t0 :: t1 :: rest) hwf
        obtain ⟨ihc, ihf, ihk, ihw⟩ := ih (mergeStep c (t0 :: t1 :: rest)) hms_ne hms_len hms_wf
        rw [hstep]
        refine ⟨?_, ?_, ?_, ihw⟩
        · rw [ihc, mergeStep_cols]
        · intro k
          rw [ihf k, mergeStep_fullRow]
        · intro k
          rw [ihk k]
          exact mergeStep_keys c (t0 :: t1 :: rest) k

/-- The merged dataset of `multi_way_union_mts` for any chunk size ≥ 2:
columns are the input column lists concatenated in input order; each key's
(padded) entry array is the concatenation of the inputs' (padded) entry
arrays; the key set is the union of the input key sets; the result is
well-formed (keys unique, arrays aligned). -/
lemma multi_way_union_mts_spec (c : Nat) (hc : 2 ≤ c) (ts : List (LTable K E))
    (hne : ts ≠ []) (hwf : ∀ t ∈ ts, t.WF) :
    (multi_way_union_mts ts c).cols = (ts.map LTable.cols).flatten
    ∧ (∀ k, (multi_way_union_mts ts c).fullRow k
        = (ts.map (fun t => t.fullRow k)).flatten)
    ∧ (∀ k, (k ∈ (multi_way_union_mts ts c).keys ↔ ∃ t ∈ ts, k ∈ t.keys))
    ∧ (multi_way_union_mts ts c).WF :=
  multiWayUnionGo_spec c hc ts.length ts hne (Nat.le_succ _) hwf


lemma mem_keys_of_lookupRow {t : LTable K E} {k : K} {es : List (Option E)}
    (h : t.lookupRow k = some es) : k ∈ t.keys :=
  List.mem_map.mpr ⟨(k, es), LTable.mem_rows_of_lookupRow h, rfl⟩

lemma fullRow_of_lookupRow {t : LTable K E} {k : K} {es : List (Option E)}
    (h : t.lookupRow k = some es) : t.fullRow k = es := by
  unfold LTable.fullRow
  rw [h]
  rfl

/-! ## Claim theorems for the merge engine -/

/-- **C1.** For every list of input partitions, the merge
(`multi_way_union_mts`, any chunk size ≥ 2) produces a dataset in which
every row key present in any input appears exactly once (keys are the
union of the inputs' keys, with no duplicates), its entry values drawn
from whichever input(s) contained it (each input's segment is that
input's entry array when the key is present, all-null padding otherwise),
and the column list is the concatenation of the inputs' column lists in
input order. -/
theorem multi_way_union_mts_correct (ts : List (LTable K E)) (c : Nat)
    (hc : 2 ≤ c) (hne : ts ≠ []) (hwf : ∀ t ∈ ts, t.WF) :
    (multi_way_union_mts ts c).keys.Nodup
    ∧ (∀ k, (k ∈ (multi_way_union_mts ts c).keys ↔ ∃ t ∈ ts, k ∈ t.keys))
    ∧ (∀ k, k ∈ (multi_way_union_mts ts c).keys →
        (multi_way_union_mts ts c).lookupRow k
          = some ((ts.map (fun t => t.fullRow k)).flatten))
    ∧ (multi_way_union_mts ts c).cols = (ts.map LTable.cols).flatten := by
  obtain ⟨hcols, hfull, hkeys, hWF⟩ := multi_way_union_mts_spec c hc ts hne hwf
  refine ⟨hWF.1, hkeys, ?_, hcols⟩
  intro k hk
  rw [LTable.lookupRow_eq_some_of_mem hk, hfull k]


/-- Witness for C1: the three-partition example merged with chunk size 2
yields one row `(MT, 100)` with entry array `[5, 7, 9]` in input order and
column list `["A", "B", "C"]`, and the reduction takes exactly two stages
(stage 0 produces 2 job outputs, stage 1 produces 1). -/
theorem multi_way_union_mts_correct_witness :
    (exampleInputs ≠ [] ∧ (∀ t ∈ exampleInputs, t.WF))
    ∧ ((multi_way_union_mts exampleInputs 2).keys.Nodup
      ∧ (∀ k, (k ∈ (multi_way_union_mts exampleInputs 2).keys
          ↔ ∃ t ∈ exampleInputs, k ∈ t.keys))
      ∧ (∀ k, k ∈ (multi_way_union_mts exampleInputs 2).keys →
          (multi_way_union_mts exampleInputs 2).lookupRow k
            = some ((exampleInputs.map (fun t => t.fullRow k)).flatten))
      ∧ (multi_way_union_mts exampleInputs 2).cols
          = (exampleInputs.map LTable.cols).flatten)
    ∧ (multi_way_union_mts exampleInputs 2).rows
        = [(("MT", 100), [some 5, some 7, some 9])]
    ∧ (multi_way_union_mts exampleInputs 2).cols = ["A", "B", "C"]
    ∧ (mergeStep 2 exampleInputs).length = 2
    ∧ (mergeStep 2 (mergeStep 2 exampleInputs)).length = 1 :=
  ⟨⟨by simp [exampleInputs], by decide⟩,
    multi_way_union_mts_correct exampleInputs 2 (by decide)
      (by simp [exampleInputs]) (by decide),
    by decide, by decide, by decide, by decide⟩

/-- **C5.** For any fixed list of input partitions and any two chunk sizes
both at least 2, the final merged dataset — the key set and each key's
column-to-entry alignment, as well as the column list itself — is
identical for both chunk sizes. -/
theorem multi_way_union_mts_chunk_invariance (ts : List (LTable K E)) (c1 c2 : Nat)
    (hc1 : 2 ≤ c1) (hc2 : 2 ≤ c2) (hne : ts ≠ []) (hwf : ∀ t ∈ ts, t.WF) :
    (multi_way_union_mts ts c1).cols = (multi_way_union_mts ts c2).cols
    ∧ (∀ k, (k ∈ (multi_way_union_mts ts c1).keys
        ↔ k ∈ (multi_way_union_mts ts c2).keys))
    ∧ (∀ k, (multi_way_union_mts ts c1).fullRow k
        = (multi_way_union_mts ts c2).fullRow k) := by
  obtain ⟨hcols1, hfull1, hkeys1, _⟩ := multi_way_union_mts_spec c1 hc1 ts hne hwf
  obtain ⟨hcols2, hfull2, hkeys2, _⟩ := multi_way_union_mts_spec c2 hc2 ts hne hwf
  refine ⟨by rw [hcols1, hcols2], ?_, ?_⟩
  · intro k
    rw [hkeys1 k, hkeys2 k]
  · intro k
    rw [hfull1 k, hfull2 k]

/-- Witness for C5 at the concrete three-partition example, chunk sizes 2
and 3. -/
theorem multi_way_union_mts_chunk_invariance_witness :
    (exampleInputs ≠ [] ∧ (∀ t ∈ exampleInputs, t.WF))
    ∧ ((multi_way_union_mts exampleInputs 2).cols
        = (multi_way_union_mts exampleInputs 3).cols
      ∧ (∀ k, (k ∈ (multi_way_union_mts exampleInputs 2).keys
          ↔ k ∈ (multi_way_union_mts exampleInputs 3).keys))
      ∧ (∀ k, (multi_way_union_mts exampleInputs 2).fullRow k
          = (multi_way_union_mts exampleInputs 3).fullRow k)) :=
  ⟨⟨by simp [exampleInputs], by decide⟩,
    multi_way_union_mts_chunk_invariance exampleInputs 2 3 (by decide) (by decide)
      (by simp [exampleInputs]) (by decide)⟩

/-- **C2.** For every merge of partitions A and B and every row key present
in A but absent in B, the merged row is A's entry array followed by a fill
of exactly `B.cols.length` entries, every one of which is the null entry
`none` (never a zero or empty-string value: the entry is absent as a
whole, so each of its fields reads as a typed null), keeping entry arrays
aligned with the concatenated column list. -/
theorem zipJoinFlatten_null_fill (A B : LTable K E) (k : K)
    (es : List (Option E)) (hkA : A.lookupRow k = some es) (hkB : k ∉ B.keys) :
    (zipJoinFlatten [A, B]).lookupRow k
        = some (es ++ List.replicate B.cols.length none)
    ∧ (List.replicate B.cols.length (none : Option E)).length = B.cols.length
    ∧ (∀ x ∈ List.replicate B.cols.length (none : Option E), x = none) := by
  refine ⟨?_, List.length_replicate _ _, fun x hx => List.eq_of_mem_replicate hx⟩
  have hkU : k ∈ unionKeys [A, B] :=
    mem_unionKeys.mpr ⟨A, by simp, mem_keys_of_lookupRow hkA⟩
  rw [lookupRow_zipJoinFlatten_of_mem hkU]
  simp only [List.map_cons, List.map_nil, List.flatten_cons, List.flatten_nil,
    List.append_nil]
  rw [fullRow_of_lookupRow hkA, LTable.fullRow_of_not_mem hkB]

/-- Witness for C2: key `(MT, 100)` present in A (single column, value 1)
and absent in the two-column partition B; the merged row is
`[some 1, none, none]`. -/
theorem zipJoinFlatten_null_fill_witness :
    ((⟨["a1"], [(("MT", 100), [some 1])]⟩ : LTable (String × Nat) Int).lookupRow ("MT", 100)
        = some [some 1]
      ∧ ("MT", 100) ∉ (⟨["b1", "b2"], [(("MT", 200), [some 2, some 3])]⟩ :
          LTable (String × Nat) Int).keys)
    ∧ ((zipJoinFlatten [(⟨["a1"], [(("MT", 100), [some 1])]⟩ : LTable (String × Nat) Int),
          ⟨["b1", "b2"], [(("MT", 200), [some 2, some 3])]⟩]).lookupRow ("MT", 100)
        = some ([some 1] ++ List.replicate 2 none)) :=
  ⟨⟨by decide, by decide⟩,
    (zipJoinFlatten_null_fill (⟨["a1"], [(("MT", 100), [some 1])]⟩ : LTable (String × Nat) Int)
      ⟨["b1", "b2"], [(("MT", 200), [some 2, some 3])]⟩ ("MT", 100) [some 1]
      (by decide) (by decide)).1⟩


/-- **C3 counterexample.** With a nonempty prefix the write path and the
resume-check path differ: the write path carries the prefix, the resume
check does not. -/
theorem checkpoint_path_mismatch_cex :
    checkpointWritePath "tmp" "p_" 0 0 ≠ resumeCheckPath "tmp" 0 0 := by decide

/-- **C3 (amended).** The checkpoint key a job's result is written to and
the key the resume check inspects and reads from coincide exactly when the
run's prefix is empty (as at the sole resume-enabled call site,
`coverage_merging` line 214, which passes `prefix=''`); for any nonempty
prefix the write path carries the prefix while the resume check looks up
the unprefixed path. -/
theorem checkpoint_path_roundtrip (tempDir pfx : String) (stage job : Nat) :
    checkpointWritePath tempDir pfx stage job = resumeCheckPath tempDir stage job
      ↔ pfx = "" := by
  constructor
  · intro h
    have hlen := congrArg String.length h
    simp only [checkpointWritePath, resumeCheckPath, osPathJoin,
      String.length_append] at hlen
    have hz : pfx.length = 0 := by omega
    cases pfx with
    | mk data =>
      cases data with
      | nil => rfl
      | cons ch cs => simp [String.length] at hz
  · intro h
    subst h
    rfl


/-- **C4.** When resume is enabled and some job's checkpoint marker is
missing: at stage 0 the scheduler fails fatally (computing and reusing
nothing); at any stage greater than 0 it does not fail and reuses none of
that stage's checkpoints, recomputing every job of the stage. -/
theorem resume_policy (ex : Nat → Bool) (stage njobs : Nat)
    (hmiss : ∃ j, j < njobs ∧ ex j = false) :
    (stage = 0 →
      resumeStageAction true ex stage njobs = .fatalResume
      ∧ stageJobsRecomputed (resumeStageAction true ex stage njobs) njobs = []
      ∧ stageCheckpointsReused (resumeStageAction true ex stage njobs) njobs = [])
    ∧ (0 < stage →
      resumeStageAction true ex stage njobs = .compute
      ∧ stageCheckpointsReused (resumeStageAction true ex stage njobs) njobs = []
      ∧ stageJobsRecomputed (resumeStageAction true ex stage njobs) njobs
          = List.range njobs) := by
  obtain ⟨j, hj, hex⟩ := hmiss
  have hfm : firstMissing ex njobs ≠ none := by
    intro h
    have hall := List.find?_eq_none.mp h j (List.mem_range.mpr hj)
    rw [hex] at hall
    exact hall rfl
  have hact : resumeStageAction true ex stage njobs
      = if stage = 0 then StageAction.fatalResume else .compute := by
    unfold resumeStageAction
    rw [if_pos rfl]
    rcases hh : firstMissing ex njobs with _ | i
    · exact absurd hh hfm
    · rfl
  constructor
  · intro h0
    rw [hact, if_pos h0]
    exact ⟨rfl, rfl, rfl⟩
  · intro hpos
    rw [hact, if_neg (by omega)]
    exact ⟨rfl, rfl, rfl⟩

/-- Witness for C4: two jobs, job 1's marker missing; stage 0 fails
fatally, stage 1 recomputes both jobs and reuses nothing. -/
theorem resume_policy_witness :
    (∃ j, j < 2 ∧ (fun j => decide (j = 0)) j = false)
    ∧ resumeStageAction true (fun j => decide (j = 0)) 0 2 = .fatalResume
    ∧ resumeStageAction true (fun j => decide (j = 0)) 1 2 = .compute
    ∧ stageCheckpointsReused (resumeStageAction true (fun j => decide (j = 0)) 1 2) 2 = []
    ∧ stageJobsRecomputed (resumeStageAction true (fun j => decide (j = 0)) 1 2) 2
        = List.range 2 :=
  ⟨⟨1, by decide, by decide⟩,
    ((resume_policy (fun j => decide (j = 0)) 0 2 ⟨1, by decide, by decide⟩).1 rfl).1,
    ((resume_policy (fun j => decide (j = 0)) 1 2 ⟨1, by decide, by decide⟩).2 (by decide)).1,
    ((resume_policy (fun j => decide (j = 0)) 1 2 ⟨1, by decide, by decide⟩).2 (by decide)).2.1,
    ((resume_policy (fun j => decide (j = 0)) 1 2 ⟨1, by decide, by decide⟩).2 (by decide)).2.2⟩


/-- **C6.** The artifact filter classifies every row over its span
`[pos, pos + refLen - 1]`: the row gets `{artifact_prone_site}` iff its
start position falls inside some reference interval, or its end position
falls inside some reference interval, or some reference interval is fully
contained within the row's span; otherwise it gets `{PASS}`. -/
theorem apply_mito_artifact_filter_correct (bed : List GIv) (pos refLen : Nat)
    (hb : ∀ I ∈ bed, I.lo ≤ I.hi) (hr : 1 ≤ refLen) :
    (apply_mito_artifact_filter bed pos refLen = ["artifact_prone_site"]
      ↔ ((∃ I ∈ bed, I.lo ≤ pos ∧ pos ≤ I.hi)
        ∨ (∃ I ∈ bed, I.lo ≤ pos + refLen - 1 ∧ pos + refLen - 1 ≤ I.hi)
        ∨ (∃ I ∈ bed, pos ≤ I.lo ∧ I.hi ≤ pos + refLen - 1)))
    ∧ (apply_mito_artifact_filter bed pos refLen = ["artifact_prone_site"]
      ∨ apply_mito_artifact_filter bed pos refLen = ["PASS"]) := by
  have hbool : (bed.any (fun I => decide (I.lo ≤ pos) && decide (pos ≤ I.hi))
      || bed.any (fun I => decide (I.lo ≤ pos + refLen - 1)
          && decide (pos + refLen - 1 ≤ I.hi))
      || bed.any (fun I => decide (pos ≤ I.lo) && decide (I.lo ≤ pos + refLen - 1))) = true
      ↔ ((∃ I ∈ bed, I.lo ≤ pos ∧ pos ≤ I.hi)
        ∨ (∃ I ∈ bed, I.lo ≤ pos + refLen - 1 ∧ pos + refLen - 1 ≤ I.hi)
        ∨ (∃ I ∈ bed, pos ≤ I.lo ∧ I.lo ≤ pos + refLen - 1)) := by
    simp only [Bool.or_eq_true, List.any_eq_true, Bool.and_eq_true, decide_eq_true_eq]
    rw [or_assoc]
  have hequiv : ((∃ I ∈ bed, I.lo ≤ pos ∧ pos ≤ I.hi)
        ∨ (∃ I ∈ bed, I.lo ≤ pos + refLen - 1 ∧ pos + refLen - 1 ≤ I.hi)
        ∨ (∃ I ∈ bed, pos ≤ I.lo ∧ I.lo ≤ pos + refLen - 1))
      ↔ ((∃ I ∈ bed, I.lo ≤ pos ∧ pos ≤ I.hi)
        ∨ (∃ I ∈ bed, I.lo ≤ pos + refLen - 1 ∧ pos + refLen - 1 ≤ I.hi)
        ∨ (∃ I ∈ bed, pos ≤ I.lo ∧ I.hi ≤ pos + refLen - 1)) := by
    constructor
    · rintro (h | h | ⟨I, hI, h1, h2⟩)
      · exact Or.inl h
      · exact Or.inr (Or.inl h)
      · rcases le_or_lt I.hi (pos + refLen - 1) with hcase | hcase
        · exact Or.inr (Or.inr ⟨I, hI, h1, hcase⟩)
        · exact Or.inr (Or.inl ⟨I, hI, h2, Nat.le_of_lt hcase⟩)
    · rintro (h | h | ⟨I, hI, h1, h2⟩)
      · exact Or.inl h
      · exact Or.inr (Or.inl h)
      · exact Or.inr (Or.inr ⟨I, hI, h1, Nat.le_trans (hb I hI) h2⟩)
  constructor
  · unfold apply_mito_artifact_filter
    split_ifs with h
    · exact iff_of_true rfl (hequiv.mp (hbool.mp h))
    · refine iff_of_false (by simp) ?_
      intro hp
      exact h (hbool.mpr (hequiv.mpr hp))
  · unfold apply_mito_artifact_filter
    split_ifs with h
    · exact Or.inl rfl
    · exact Or.inr rfl

/-- Witness for C6: with reference interval `[100, 100]` a row spanning
`[95, 105]` (refLen 11) is flagged via the containment case, and a row
spanning `[50, 60]` gets `PASS`. -/
theorem apply_mito_artifact_filter_witness :
    ((∀ I ∈ [GIv.mk 100 100], I.lo ≤ I.hi) ∧ 1 ≤ 11)
    ∧ apply_mito_artifact_filter [GIv.mk 100 100] 95 11 = ["artifact_prone_site"]
    ∧ apply_mito_artifact_filter [GIv.mk 100 100] 50 11 = ["PASS"] :=
  ⟨⟨by decide, by decide⟩,
    (apply_mito_artifact_filter_correct [GIv.mk 100 100] 95 11
        (by decide) (by decide)).1.mpr
      (Or.inr (Or.inr ⟨GIv.mk 100 100, by decide, by decide, by decide⟩)),
    by decide⟩


/-- **C7.** For every entry whose `HL` is missing, the hom-ref imputer
looks up the coverage depth: a (fully) missing entry with no coverage
stays missing; depth strictly above the threshold rewrites the entry to
`HL = 0.0`, `FT = {PASS}`, `DP =` the looked-up coverage; depth present
but at or below the threshold sets `DP` to null (leaving `HL` missing and
`FT` untouched).  Entries whose `HL` is present are unchanged. -/
theorem determine_hom_refs_correct (minCov : Int) (cov : Option Int) (e : MTEntry) :
    (e.HL = none → cov = none → e.DP = none → e.FT = none →
      determine_hom_refs minCov cov e = e)
    ∧ (∀ d : Int, e.HL = none → cov = some d → minCov < d →
      (determine_hom_refs minCov cov e).HL = some 0
      ∧ (determine_hom_refs minCov cov e).FT = some ["PASS"]
      ∧ (determine_hom_refs minCov cov e).DP = some d)
    ∧ (∀ d : Int, e.HL = none → cov = some d → d ≤ minCov →
      (determine_hom_refs minCov cov e).DP = none
      ∧ (determine_hom_refs minCov cov e).HL = none
      ∧ (determine_hom_refs minCov cov e).FT = e.FT)
    ∧ (∀ x : ℚ, e.HL = some x → determine_hom_refs minCov cov e = e) := by
  refine ⟨?_, ?_, ?_, ?_⟩
  · intro h1 h2 h3 h4
    cases e
    simp only at h1 h3 h4
    subst h1; subst h2; subst h3; subst h4
    rfl
  · intro d h1 h2 h3
    have hgt : decide (minCov < d) = true := by simpa using h3
    cases e
    simp only at h1
    subst h1; subst h2
    have hle : decide (d ≤ minCov) = false := by simpa using h3
    simp [determine_hom_refs, hIfElse, kleeneAndT, optGtInt, optLeInt, hgt, hle]
  · intro d h1 h2 h3
    have hgt : decide (minCov < d) = false := by simpa using h3
    have hle : decide (d ≤ minCov) = true := by simpa using h3
    cases e
    simp only at h1
    subst h1; subst h2
    simp [determine_hom_refs, hIfElse, kleeneAndT, optGtInt, optLeInt, hgt, hle]
  · intro x hx
    cases e
    simp only at hx
    subst hx
    rfl

/-- Witness for C7 at concrete entries: a fully missing entry with
coverage 150 over threshold 100 becomes hom-ref; with coverage 50 its
`DP` is nulled; with no coverage it is unchanged. -/
theorem determine_hom_refs_witness :
    ((MTEntry.mk none none none none none).HL = none ∧ (100 : Int) < 150 ∧ (50 : Int) ≤ 100)
    ∧ ((determine_hom_refs 100 (some 150) (MTEntry.mk none none none none none)).HL = some 0
      ∧ (determine_hom_refs 100 (some 150) (MTEntry.mk none none none none none)).FT
          = some ["PASS"]
      ∧ (determine_hom_refs 100 (some 150) (MTEntry.mk none none none none none)).DP
          = some 150)
    ∧ (determine_hom_refs 100 (some 50) (MTEntry.mk none none none none none)).DP = none
    ∧ determine_hom_refs 100 none (MTEntry.mk none none none none none)
        = MTEntry.mk none none none none none :=
  ⟨⟨rfl, by decide, by decide⟩,
    (determine_hom_refs_correct 100 (some 150) (MTEntry.mk none none none none none)).2.1
      150 rfl rfl (by decide),
    ((determine_hom_refs_correct 100 (some 50) (MTEntry.mk none none none none none)).2.2.1
      50 rfl rfl (by decide)).1,
    (determine_hom_refs_correct 100 none (MTEntry.mk none none none none none)).1
      rfl rfl rfl rfl⟩


/-- **C9.** The filter-removal pass that runs between merging and hom-ref
imputation (`vcf_merging_and_processing` lines 293–297) removes exactly
`possible_numt`, `mt_many_low_hets`, `FAIL` and `blacklisted_site` from
every entry's FT set: when the difference is non-empty the new FT is
precisely the original set minus those four (every non-removed filter is
retained, and nothing else appears); when removal empties the set, FT
becomes `{PASS}`.  Afterwards every present FT set is non-empty; no
row-level or column-level field, and no other entry field, is modified. -/
theorem remove_genotype_filters_correct {R C : Type} (m : MiniMT R C) (e : MTEntry) :
    (remove_genotype_filters m).rowFields = m.rowFields
    ∧ (remove_genotype_filters m).colFields = m.colFields
    ∧ ((remove_genotype_filters_entry e).DP = e.DP
      ∧ (remove_genotype_filters_entry e).HL = e.HL
      ∧ (remove_genotype_filters_entry e).MQ = e.MQ
      ∧ (remove_genotype_filters_entry e).TLOD = e.TLOD)
    ∧ (e.FT = none → (remove_genotype_filters_entry e).FT = none)
    ∧ (∀ s, e.FT = some s →
      ∃ s2, (remove_genotype_filters_entry e).FT = some s2
        ∧ s2 ≠ []
        ∧ (∀ f ∈ FILTERS_TO_REMOVE, f ∉ s2)
        ∧ (s.filter (fun f => decide (f ∉ FILTERS_TO_REMOVE)) = [] → s2 = ["PASS"])
        ∧ (∀ g ∈ s2, g = "PASS" ∨ (g ∈ s ∧ g ∉ FILTERS_TO_REMOVE))
        ∧ (s.filter (fun f => decide (f ∉ FILTERS_TO_REMOVE)) ≠ [] →
            s2 = s.filter (fun f => decide (f ∉ FILTERS_TO_REMOVE)))
        ∧ (∀ g ∈ s, g ∉ FILTERS_TO_REMOVE → g ∈ s2)) := by
  refine ⟨rfl, rfl, ⟨rfl, rfl, rfl, rfl⟩, ?_, ?_⟩
  · intro h
    simp [remove_genotype_filters_entry, remove_genotype_filters_FT, h]
  · intro s hs
    by_cases hempty : s.filter (fun f => decide (f ∉ FILTERS_TO_REMOVE)) = []
    · refine ⟨["PASS"], ?_, by simp, ?_, fun _ => rfl, ?_, fun h => absurd hempty h, ?_⟩
      · show remove_genotype_filters_FT e.FT = some ["PASS"]
        rw [hs]
        show some (if (s.filter (fun f => decide (f ∉ FILTERS_TO_REMOVE))).isEmpty
            then ["PASS"] else s.filter (fun f => decide (f ∉ FILTERS_TO_REMOVE)))
          = some ["PASS"]
        rw [hempty]
        rfl
      · intro f hf
        fin_cases hf <;> simp
      · intro g hg
        simp only [List.mem_singleton] at hg
        exact Or.inl hg
      · intro g hg hgR
        have : g ∈ s.filter (fun f => decide (f ∉ FILTERS_TO_REMOVE)) :=
          List.mem_filter.mpr ⟨hg, by simpa using hgR⟩
        rw [hempty] at this
        cases this
    · have hne : (s.filter (fun f => decide (f ∉ FILTERS_TO_REMOVE))).isEmpty = false := by
        cases hfe : s.filter (fun f => decide (f ∉ FILTERS_TO_REMOVE)) with
        | nil => exact absurd hfe hempty
        | cons a l => rfl
      refine ⟨s.filter (fun f => decide (f ∉ FILTERS_TO_REMOVE)), ?_, hempty, ?_, ?_, ?_,
        fun _ => rfl, ?_⟩
      · show remove_genotype_filters_FT e.FT
          = some (s.filter (fun f => decide (f ∉ FILTERS_TO_REMOVE)))
        rw [hs]
        show some (if (s.filter (fun f => decide (f ∉ FILTERS_TO_REMOVE))).isEmpty
            then ["PASS"] else s.filter (fun f => decide (f ∉ FILTERS_TO_REMOVE)))
          = some (s.filter (fun f => decide (f ∉ FILTERS_TO_REMOVE)))
        rw [hne]
        rfl
      · intro f hf hmem
        have := (List.mem_filter.mp hmem).2
        simp only [decide_eq_true_eq] at this
        exact this hf
      · intro h
        exact absurd h hempty
      · intro g hg
        have h1 := (List.mem_filter.mp hg).1
        have h2 := (List.mem_filter.mp hg).2
        simp only [decide_eq_true_eq] at h2
        exact Or.inr ⟨h1, h2⟩
      · intro g hg hgR
        exact List.mem_filter.mpr ⟨hg, by simpa using hgR⟩

/-- Witness for C9: an entry whose FT is `{FAIL, strand_bias}` comes out
with FT exactly `{strand_bias}` (the removed filter gone, the other
retained), and an entry whose FT is exactly `{FAIL}` comes out with FT
`{PASS}`. -/
theorem remove_genotype_filters_witness :
    ((MTEntry.mk none none none none (some ["FAIL", "strand_bias"])).FT
        = some ["FAIL", "strand_bias"])
    ∧ (∃ s2, (remove_genotype_filters_entry
          (MTEntry.mk none none none none (some ["FAIL", "strand_bias"]))).FT = some s2
        ∧ s2 ≠ []
        ∧ (∀ f ∈ FILTERS_TO_REMOVE, f ∉ s2)
        ∧ ((["FAIL", "strand_bias"].filter (fun f => decide (f ∉ FILTERS_TO_REMOVE))) = []
            → s2 = ["PASS"])
        ∧ (∀ g ∈ s2, g = "PASS" ∨ (g ∈ ["FAIL", "strand_bias"] ∧ g ∉ FILTERS_TO_REMOVE))
        ∧ ((["FAIL", "strand_bias"].filter (fun f => decide (f ∉ FILTERS_TO_REMOVE))) ≠ []
            → s2 = ["FAIL", "strand_bias"].filter (fun f => decide (f ∉ FILTERS_TO_REMOVE)))
        ∧ (∀ g ∈ ["FAIL", "strand_bias"], g ∉ FILTERS_TO_REMOVE → g ∈ s2))
    ∧ (remove_genotype_filters_entry
        (MTEntry.mk none none none none (some ["FAIL", "strand_bias"]))).FT
        = some ["strand_bias"]
    ∧ (remove_genotype_filters_entry
        (MTEntry.mk none none none none (some ["FAIL"]))).FT = some ["PASS"] :=
  ⟨rfl,
    (remove_genotype_filters_correct (MiniMT.mk ([] : List Unit) ([] : List Unit) [])
      (MTEntry.mk none none none none (some ["FAIL", "strand_bias"]))).2.2.2.2
      ["FAIL", "strand_bias"] rfl,
    by decide, by decide⟩


/-- **C8.** Merging two datasets whose (selected) row schema, column
schema, or entry schema differ in field name, order, or type always fails
with the schema-mismatch error and writes no checkpoint of the join; the
join proceeds (invoking the two-way merge, which writes its checkpoints)
only when all three dtypes are pointwise identical. -/
theorem join_two_mts_schema_guard (s1 s2 : MatrixSchema) (t1 t2 : LTable K E)
    (row_keep col_keep : List String) (temp_dir : String) (partitions : Nat) :
    (¬(rowDtype (select_rows_cols s1 row_keep col_keep)
          = rowDtype (select_rows_cols s2 row_keep col_keep)
        ∧ colDtype (select_rows_cols s1 row_keep col_keep)
          = colDtype (select_rows_cols s2 row_keep col_keep)
        ∧ entryDtype (select_rows_cols s1 row_keep col_keep)
          = entryDtype (select_rows_cols s2 row_keep col_keep)) →
      join_two_mts s1 s2 t1 t2 row_keep col_keep temp_dir partitions
        = ([], Except.error SCHEMA_ERR))
    ∧ ((rowDtype (select_rows_cols s1 row_keep col_keep)
          = rowDtype (select_rows_cols s2 row_keep col_keep)
        ∧ colDtype (select_rows_cols s1 row_keep col_keep)
          = colDtype (select_rows_cols s2 row_keep col_keep)
        ∧ entryDtype (select_rows_cols s1 row_keep col_keep)
          = entryDtype (select_rows_cols s2 row_keep col_keep)) →
      join_two_mts s1 s2 t1 t2 row_keep col_keep temp_dir partitions
        = (mergeWritePaths temp_dir "appending_" 2 partitions 2,
          Except.ok (multi_way_union_mts [t1, t2] 2))) := by
  constructor
  · intro h
    unfold join_two_mts
    rw [if_neg h]
  · intro h
    unfold join_two_mts
    rw [if_pos h]


/-- Witness for C8: two schemas agreeing except that the entry field `DP`
is `int32` in one and `float64` in the other; the join fails with the
schema error and performs no writes. -/
theorem join_two_mts_schema_guard_witness :
    (¬(rowDtype (select_rows_cols schemaIntDP [] [])
          = rowDtype (select_rows_cols schemaFloatDP [] [])
        ∧ colDtype (select_rows_cols schemaIntDP [] [])
          = colDtype (select_rows_cols schemaFloatDP [] [])
        ∧ entryDtype (select_rows_cols schemaIntDP [] [])
          = entryDtype (select_rows_cols schemaFloatDP [] [])))
    ∧ join_two_mts schemaIntDP schemaFloatDP emptyLT emptyLT [] [] "tmp" 1
        = ([], Except.error SCHEMA_ERR) :=
  ⟨by decide,
    (join_two_mts_schema_guard schemaIntDP schemaFloatDP emptyLT emptyLT
      [] [] "tmp" 1).1 (by decide)⟩

/-- **C10.** For every finite input sequence and every `binsize ≥ 1`, the
`chunks` generator yields chunks whose concatenation is the input in order,
every chunk but possibly the last has exactly `binsize` elements, and every
chunk (the last included) has between 1 and `binsize` elements — in
particular no empty chunk is ever yielded. -/
theorem chunks_correct (items : List α) (binsize : Nat) (hb : 1 ≤ binsize) :
    (chunks items binsize).flatten = items ∧
    (∀ c ∈ chunks items binsize, 1 ≤ c.length ∧ c.length ≤ binsize) ∧
    (∀ c ∈ (chunks items binsize).dropLast, c.length = binsize) := by
  refine ⟨?_, ?_, ?_⟩
  · simpa using chunksGo_flatten binsize items [] (by simpa using hb)
  · exact chunksGo_bounds binsize hb items [] (by simpa using hb)
  · exact chunksGo_dropLast binsize items [] (by simpa using hb)

/-- Witness for C10 at a concrete input. -/
theorem chunks_correct_witness :
    (1 ≤ 2) ∧
    ((chunks [1, 2, 3, 4, 5] 2).flatten = [1, 2, 3, 4, 5] ∧
      (∀ c ∈ chunks [1, 2, 3, 4, 5] 2, 1 ≤ c.length ∧ c.length ≤ 2) ∧
      (∀ c ∈ (chunks [1, 2, 3, 4, 5] 2).dropLast, c.length = 2)) :=
  ⟨by decide, chunks_correct [1, 2, 3, 4, 5] 2 (by decide)⟩

end MtSwirl
